import Mathlib

/-!
Verification of the hierarchical-category model of Govexec/django-categories.

The repository defines two parallel model classes:
* CategoryBase in src/categories/base.py (save with a guarded deactivation
  cascade, generate_unicode_name, all_categories, and the admin form clean
  validation), and
* Category in src/categories/models.py (save with an unguarded cascade,
  thumbnail dimension recomputation, generate_unicode_name,
  get_absolute_url).

The nested-set tree library (django-mptt) and the ORM are external
collaborators: the store is modelled as a list of records, persistence as
replace-by-id, and the descendant query by the nested-set coordinate
filter the library uses (same tree_id, lft strictly inside the bounds of
the node).  Ancestor lists are passed to the breadcrumb functions as
explicit arguments (root first), standing for the get_ancestors query of
the tree store, which the spec treats as external and correct.

Recursive saves (each cascade step calls the save of the descendant, which
cascades again) are modelled with explicit fuel: a save that runs out of
fuel returns none, so every theorem about a completed save is conditional
on the call returning some store.
-/

namespace GovexecCategories

/-! ## Slug derivation

Models django.template.defaultfilters.slugify (an external framework
helper) for ASCII input: remove every character that is not a word
character, whitespace or a hyphen, strip surrounding whitespace, lowercase,
then collapse every run of whitespace or hyphens into a single hyphen. -/

def isWordChar (c : Char) : Bool :=
  c.isAlphanum || c = '_'

def isSpaceChar (c : Char) : Bool :=
  c = ' ' || c = '\t' || c = '\n' || c = '\r'

/-- One pass that replaces each maximal run of whitespace or hyphen
characters by a single hyphen, as the final regex substitution of slugify
does.  The flag records whether the previous character belonged to such a
run. -/
def collapseRuns : Bool → List Char → List Char
  | _, [] => []
  | inRun, c :: rest =>
    if isSpaceChar c || c = '-' then
      if inRun then collapseRuns true rest
      else '-' :: collapseRuns true rest
    else c :: collapseRuns false rest

def stripSpaces (cs : List Char) : List Char :=
  ((cs.dropWhile isSpaceChar).reverse.dropWhile isSpaceChar).reverse

def slugify (s : String) : String :=
  let kept := s.data.filter (fun c => isWordChar c || isSpaceChar c || c = '-')
  let stripped := stripSpaces kept
  let lowered := stripped.map Char.toLower
  String.mk (collapseRuns false lowered)

/-- Modelled from the spec: SLUG_TRANSLITERATOR comes from
categories/settings.py, which is not among the provided sources.  The spec
states the slug rule as slug = truncate(urlSafe(node.name), 50) with no
transliteration step, so the transliterator is the identity. -/
def SLUG_TRANSLITERATOR (s : String) : String := s

/-! ## The category record and the tree store -/

/-- One persisted category row.  The fields merge those of CategoryBase
(base.py) and Category (models.py) that the verified claims touch; tree_id,
lft and rght are the nested-set coordinates maintained by the external
tree library. -/
structure Category where
  id : Nat
  parent : Option Nat
  tree_id : Nat
  lft : Nat
  rght : Nat
  name : String
  slug : String
  active : Bool
  unicode_name : Option String
  alternate_url : String
  thumbnail : Option String
  thumbnail_width : Option Nat
  thumbnail_height : Option Nat
deriving Repr, DecidableEq

abbrev Store := List Category

/-- The write of the ORM layer: update the row with the same primary key,
or insert the record when no such row exists. -/
def persist (st : Store) (n : Category) : Store :=
  if st.any (fun r => r.id = n.id) then
    st.map (fun r => if r.id = n.id then n else r)
  else
    st ++ [n]

/-- The nested-set descendant test used by the tree library: same tree and
a left bound strictly inside the bounds of the ancestor. -/
def isDescendant (d n : Category) : Bool :=
  decide (d.tree_id = n.tree_id ∧ n.lft < d.lft ∧ d.lft < n.rght)

/-- The get_descendants query of the tree store. -/
def get_descendants (st : Store) (n : Category) : List Category :=
  st.filter (fun d => isDescendant d n)

/-! ## save (base.py lines 61-76 and models.py lines 130-151) -/

/-- Lines 67-68 of base.py: if not self.slug, derive it from the name. -/
def CategoryBase_assignSlug (n : Category) : Category :=
  if n.slug = "" then
    { n with slug := (slugify (SLUG_TRANSLITERATOR n.name)).take 50 }
  else n

/-- Lines 131-132 of models.py: if not self.slug, derive it from the name. -/
def Category_assignSlug (n : Category) : Category :=
  if n.slug = "" then
    { n with slug := (slugify n.name).take 50 }
  else n

/-- Lines 133-144 of models.py: recompute the thumbnail dimensions.  The
dims argument stands for the external get_image_dimensions call. -/
def Category_setThumbnail (dims : String → Nat × Nat) (n : Category) : Category :=
  match n.thumbnail with
  | some t => { n with thumbnail_width := some (dims t).1,
                       thumbnail_height := some (dims t).2 }
  | none => { n with thumbnail_width := none, thumbnail_height := none }

/-- CategoryBase.save, base.py lines 61-76: derive the slug when blank,
persist the row, and only when the node is inactive walk every descendant,
flipping and re-saving each one whose active flag differs. -/
def CategoryBase_saveF : Nat → Store → Category → Option Store
  | 0, _, _ => none
  | fuel + 1, st, n =>
    let n1 := CategoryBase_assignSlug n
    let st1 := persist st n1
    if n1.active then some st1
    else
      (get_descendants st1 n1).foldlM
        (fun acc item =>
          if item.active ≠ n1.active then
            CategoryBase_saveF fuel acc { item with active := n1.active }
          else pure acc)
        st1

/-- Category.save, models.py lines 130-151: derive the slug when blank,
recompute thumbnail dimensions, persist the row, then walk every
descendant with no guard on the active flag, flipping and re-saving each
one whose active flag differs from the saved node. -/
def Category_saveF (dims : String → Nat × Nat) : Nat → Store → Category → Option Store
  | 0, _, _ => none
  | fuel + 1, st, n =>
    let n1 := Category_setThumbnail dims (Category_assignSlug n)
    let st1 := persist st n1
    (get_descendants st1 n1).foldlM
      (fun acc item =>
        if item.active ≠ n1.active then
          Category_saveF dims fuel acc { item with active := n1.active }
        else pure acc)
      st1

/-- The shared shape of the two cascade loops, used to state lemmas about
them; each save function unfolds to cascadeWith applied to itself at the
next smaller fuel. -/
def cascadeWith (save : Store → Category → Option Store) (act : Bool)
    (items : List Category) (st : Store) : Option Store :=
  items.foldlM
    (fun acc item =>
      if item.active ≠ act then save acc { item with active := act }
      else pure acc)
    st

/-! ## Breadcrumbs (base.py lines 78-102, models.py lines 103-114 and 164-182) -/

/-- CategoryBase.generate_unicode_name, base.py lines 83-90.  The source
builds ancestors_list and conditionally deletes its first element, but the
final join iterates the original ancestors queryset, so the deletion has
no effect on the result; the embedding reproduces that. -/
def CategoryBase_generate_unicode_name (ancestors : List Category) (self : Category) : String :=
  let ancestors_list : List Category :=
    match ancestors with
    | [] => []
    | a :: rest =>
      if ¬ a.slug = "magazine" ∧ ¬ a.slug = "nextgov-categories" then rest
      else a :: rest
  " > ".intercalate (ancestors.map (fun i => i.name) ++ [self.name])

/-- Category.generate_unicode_name, models.py lines 171-182: here the join
iterates ancestors_list, so the conditional deletion of the first ancestor
does take effect. -/
def Category_generate_unicode_name (ancestors : List Category) (self : Category) : String :=
  let ancestors_list : List Category :=
    match ancestors with
    | [] => []
    | a :: rest =>
      if ¬ a.slug = "magazine" ∧ ¬ a.slug = "nextgov-categories" then rest
      else a :: rest
  " > ".intercalate (ancestors_list.map (fun i => i.name) ++ [self.name])

/-- The display name of base.py lines 78-81: the unicode_name override is
returned verbatim when set and non-empty. -/
def CategoryBase_displayName (ancestors : List Category) (self : Category) : String :=
  match self.unicode_name with
  | some s => if s = "" then CategoryBase_generate_unicode_name ancestors self else s
  | none => CategoryBase_generate_unicode_name ancestors self

/-- The display name of models.py lines 164-169. -/
def Category_displayName (ancestors : List Category) (self : Category) : String :=
  match self.unicode_name with
  | some s => if s = "" then Category_generate_unicode_name ancestors self else s
  | none => Category_generate_unicode_name ancestors self

/-- Category.get_absolute_url, models.py lines 103-114.  The base_path
argument stands for the external reverse lookup of the configured list
view, and ancestors for the root-first get_ancestors query. -/
def Category_get_absolute_url (base_path : String) (ancestors : List Category)
    (self : Category) : String :=
  if ¬ self.alternate_url = "" then self.alternate_url
  else
    let anc0 := ancestors ++ [self]
    let anc1 := if anc0.length > 0 then anc0.tail else anc0
    base_path ++ "/".intercalate (anc1.map (fun i => i.slug)) ++ "/"

/-! ## all_categories (base.py lines 92-102)

The attribute dictionary of the live Python object is modelled as a map
from attribute names to stored values.  Inside the class body the source
writes self.__all_categories, which Python name-mangles to the attribute
_CategoryBase__all_categories, while the hasattr guard tests the literal
string __all_categories, which is not mangled. -/

abbrev Attrs := String → Option (List String)

/-- The loop of lines 96-101: each step appends the delimiter-join of all
previously accumulated entries plus the current ancestor name.  Note that
the accumulated entries are themselves already joined paths. -/
def all_categories_loop (delimiter : String) (acc : List String) : List String → List String
  | [] => acc
  | name :: rest =>
    all_categories_loop delimiter (acc ++ [delimiter.intercalate (acc ++ [name])]) rest

/-- CategoryBase.all_categories, base.py lines 92-102.  When the guard
fires it returns the mangled attribute, which raises (modelled as none)
when that attribute is absent; otherwise it recomputes from the current
ancestor names (root first, including self) and stores the result under
the mangled attribute name. -/
def CategoryBase_all_categories (attrs : Attrs) (ancestors_incl_self : List Category)
    (delimiter : String) : Option (List String × Attrs) :=
  if (attrs "__all_categories").isSome then
    match attrs "_CategoryBase__all_categories" with
    | some v => some (v, attrs)
    | none => none
  else
    let result := all_categories_loop delimiter [] (ancestors_incl_self.map (fun c => c.name))
    some (result, fun k => if k = "_CategoryBase__all_categories" then some result else attrs k)

/-! ## Admin form validation (base.py lines 113-157) -/

inductive CleanError where
  | DuplicateSlug
  | SelfParent
  | CyclicParent
deriving Repr, DecidableEq

/-- The cleaned parent chosen in the admin form: its primary key and the
tree it belongs to. -/
structure ParentRef where
  id : Nat
  tree_id : Nat
deriving Repr, DecidableEq

/-- The slug-uniqueness part of CategoryBaseAdminForm.clean, base.py lines
129-143: for a top-level candidate the tree of slugs to compare against is
left empty, otherwise it is every slug of a row in the tree of the parent
whose id differs from the id of the instance. -/
def clean_slug_unique (store : Store) (parent : Option ParentRef)
    (instance_id : Option Nat) (slug : String) : Except CleanError Unit :=
  let this_tree_slugs : List String :=
    match parent with
    | none => []
    | some p =>
      (store.filter
        (fun c => decide (c.tree_id = p.tree_id ∧ ¬ some c.id = instance_id))).map
        (fun c => c.slug)
  if slug ∈ this_tree_slugs then Except.error CleanError.DuplicateSlug
  else Except.ok ()

/-- The parent-validation part of CategoryBaseAdminForm.clean, base.py
lines 145-157: no check when the parent is cleared or the instance is new;
otherwise reject self-parenting, then reject a parent drawn from the
current descendants of the instance. -/
def clean_parent_valid (descendant_ids : List Nat) (parent : Option ParentRef)
    (instance_id : Option Nat) : Except CleanError Unit :=
  match parent, instance_id with
  | none, _ => Except.ok ()
  | some _, none => Except.ok ()
  | some p, some iid =>
    if p.id = iid then Except.error CleanError.SelfParent
    else if p.id ∈ descendant_ids then Except.error CleanError.CyclicParent
    else Except.ok ()

/-- CategoryBaseAdminForm.clean, base.py lines 119-157: the slug check
runs first, then the parent check. -/
def CategoryBaseAdminForm_clean (store : Store) (descendant_ids : List Nat)
    (parent : Option ParentRef) (instance_id : Option Nat) (slug : String) :
    Except CleanError Unit := do
  clean_slug_unique store parent instance_id slug
  clean_parent_valid descendant_ids parent instance_id

/-! ## Verification infrastructure definitions -/

/-- The slug derivation applied by CategoryBase.save when the slug is
blank. -/
def derB (nm : String) : String := (slugify (SLUG_TRANSLITERATOR nm)).take 50

/-- The slug derivation applied by Category.save when the slug is blank. -/
def derC (nm : String) : String := (slugify nm).take 50

/-- The shape of every record written during a save whose saved node has
active flag act: identity, name and tree coordinates come from some prior
record, the active flag is forced to act, and the slug is either kept or,
when it was blank, derived from the name. -/
def SaveRel (act : Bool) (der : String → String) (r' r : Category) : Prop :=
  r'.id = r.id ∧ r'.name = r.name ∧ r'.tree_id = r.tree_id ∧
  r'.lft = r.lft ∧ r'.rght = r.rght ∧ r'.active = act ∧
  (r'.slug = r.slug ∨ (r.slug = "" ∧ r'.slug = der r.name))

/-- Every record of the store with the given id has the given active
flag. -/
def MatchAt (st : Store) (i : Nat) (b : Bool) : Prop :=
  ∀ r ∈ st, r.id = i → r.active = b

/-! ## Concrete records used by witnesses and counterexamples -/

def mkCat (i t l r : Nat) (nm sl : String) (act : Bool) : Category :=
  { id := i, parent := none, tree_id := t, lft := l, rght := r, name := nm,
    slug := sl, active := act, unicode_name := none, alternate_url := "",
    thumbnail := none, thumbnail_width := none, thumbnail_height := none }

def dims0 : String → Nat × Nat := fun _ => (0, 0)

def attrs0 : Attrs := fun _ => none

/-- Root of the demo tree A -> B -> C, as passed to save with the active
flag already cleared. -/
def demoA : Category := mkCat 1 1 1 6 "A" "a" false

def demoB : Category := mkCat 2 1 2 5 "B" "b" true

def demoC : Category := mkCat 3 1 3 4 "C" "c" true

def demoStore : Store := [{ demoA with active := true }, demoB, demoC]

def demoOut : Store := [demoA, { demoB with active := false }, { demoC with active := false }]

/-- An active parent with an inactive child, for the activation-cascade
counterexample. -/
def cexP : Category := mkCat 1 1 1 4 "P" "p" true

def cexC : Category := mkCat 2 1 2 3 "C" "c" false

def ancRoot : Category := mkCat 10 1 1 8 "Root" "topics" true

def ancMid : Category := mkCat 11 1 2 7 "Mid" "mid" true

def leafN : Category := mkCat 12 1 3 6 "Leaf" "leaf" true

def altNode : Category := { leafN with alternate_url := "http-alt" }

def helloNode : Category := mkCat 100 5 1 2 "Hello World" "" true

def helloSaved : Category := { helloNode with slug := "hello-world" }

def slugRow : Category := mkCat 21 7 1 2 "Dup" "dup" true

def slugStore : Store := [slugRow]

/-! # Lemmas about the store and the save machinery -/

theorem mem_persist {r : Category} {st : Store} {n : Category}
    (h : r ∈ persist st n) : r = n ∨ r ∈ st := by
  unfold persist at h
  split at h
  · obtain ⟨x, hx, hr⟩ := List.mem_map.mp h
    split at hr
    · exact Or.inl hr.symm
    · exact Or.inr (hr ▸ hx)
  · rcases List.mem_append.mp h with hx | hx
    · exact Or.inr hx
    · exact Or.inl (List.mem_singleton.mp hx)

theorem eq_of_mem_persist_id {r : Category} {st : Store} {n : Category}
    (h : r ∈ persist st n) (hid : r.id = n.id) : r = n := by
  unfold persist at h
  split at h
  · obtain ⟨x, hx, hr⟩ := List.mem_map.mp h
    split at hr
    · exact hr.symm
    · rename_i hne
      exact absurd (hr ▸ hid) hne
  · rename_i hany
    rcases List.mem_append.mp h with hx | hx
    · exact absurd (List.any_eq_true.mpr ⟨r, hx, decide_eq_true hid⟩) hany
    · exact List.mem_singleton.mp hx

theorem mem_persist_of_ne {r : Category} {st : Store} {n : Category}
    (h : r ∈ st) (hid : ¬ r.id = n.id) : r ∈ persist st n := by
  unfold persist
  split
  · exact List.mem_map.mpr ⟨r, h, by simp [hid]⟩
  · exact List.mem_append_left _ h

theorem matchAt_persist (st : Store) (n : Category) :
    MatchAt (persist st n) n.id n.active := by
  intro r hr hid
  rw [eq_of_mem_persist_id hr hid]

theorem matchAt_of_writes {st st' : Store} {act : Bool}
    (hw : ∀ r' ∈ st', r'.active ≠ act → r' ∈ st) {i : Nat}
    (hm : MatchAt st i act) : MatchAt st' i act := by
  intro r hr hid
  by_contra hne
  exact hne (hm r (hw r hr hne) hid)

theorem base_assign_fields (n : Category) :
    (CategoryBase_assignSlug n).id = n.id ∧ (CategoryBase_assignSlug n).name = n.name ∧
    (CategoryBase_assignSlug n).tree_id = n.tree_id ∧ (CategoryBase_assignSlug n).lft = n.lft ∧
    (CategoryBase_assignSlug n).rght = n.rght ∧ (CategoryBase_assignSlug n).active = n.active := by
  by_cases hs : n.slug = "" <;> simp [CategoryBase_assignSlug, hs]

theorem saveRel_base_assign (n : Category) :
    SaveRel n.active derB (CategoryBase_assignSlug n) n := by
  by_cases hs : n.slug = ""
  · refine ⟨?_, ?_, ?_, ?_, ?_, ?_, Or.inr ⟨hs, ?_⟩⟩ <;>
      simp [CategoryBase_assignSlug, hs, derB]
  · refine ⟨?_, ?_, ?_, ?_, ?_, ?_, Or.inl ?_⟩ <;>
      simp [CategoryBase_assignSlug, hs]

theorem cat_n1_fields (dims : String → Nat × Nat) (n : Category) :
    (Category_setThumbnail dims (Category_assignSlug n)).id = n.id ∧
    (Category_setThumbnail dims (Category_assignSlug n)).name = n.name ∧
    (Category_setThumbnail dims (Category_assignSlug n)).tree_id = n.tree_id ∧
    (Category_setThumbnail dims (Category_assignSlug n)).lft = n.lft ∧
    (Category_setThumbnail dims (Category_assignSlug n)).rght = n.rght ∧
    (Category_setThumbnail dims (Category_assignSlug n)).active = n.active := by
  by_cases hs : n.slug = "" <;> cases ht : n.thumbnail <;>
    simp [Category_setThumbnail, Category_assignSlug, hs, ht]

theorem saveRel_cat_assign (dims : String → Nat × Nat) (n : Category) :
    SaveRel n.active derC (Category_setThumbnail dims (Category_assignSlug n)) n := by
  by_cases hs : n.slug = ""
  · refine ⟨?_, ?_, ?_, ?_, ?_, ?_, Or.inr ⟨hs, ?_⟩⟩ <;> cases ht : n.thumbnail <;>
      simp [Category_setThumbnail, Category_assignSlug, hs, ht, derC]
  · refine ⟨?_, ?_, ?_, ?_, ?_, ?_, Or.inl ?_⟩ <;> cases ht : n.thumbnail <;>
      simp [Category_setThumbnail, Category_assignSlug, hs, ht]

theorem saveRel_trans {act : Bool} {der : String → String} {a b c : Category}
    (h2 : SaveRel act der a b) (h1 : SaveRel act der b c) : SaveRel act der a c := by
  obtain ⟨i2, n2, t2, l2, r2, a2, s2⟩ := h2
  obtain ⟨i1, n1, t1, l1, r1, a1, s1⟩ := h1
  refine ⟨i2.trans i1, n2.trans n1, t2.trans t1, l2.trans l1, r2.trans r1, a2, ?_⟩
  rcases s2 with hs2 | ⟨hb, hs2⟩
  · rcases s1 with hs1 | ⟨hc, hs1⟩
    · exact Or.inl (hs2.trans hs1)
    · exact Or.inr ⟨hc, hs2.trans hs1⟩
  · rcases s1 with hs1 | ⟨hc, hs1⟩
    · exact Or.inr ⟨hs1.symm.trans hb, hs2.trans (congrArg der n1)⟩
    · exact Or.inr ⟨hc, hs2.trans (congrArg der n1)⟩

theorem saveRel_flip {act : Bool} {der : String → String} (item : Category) :
    SaveRel act der { item with active := act } item :=
  ⟨rfl, rfl, rfl, rfl, rfl, rfl, Or.inl rfl⟩

theorem saveRel_active {act : Bool} {der : String → String} {a b : Category}
    (h : SaveRel act der a b) : a.active = act := h.2.2.2.2.2.1

/-! ## The cascade loop -/

theorem cascadeWith_nil {save : Store → Category → Option Store} {act : Bool} {st : Store} :
    cascadeWith save act [] st = some st := rfl

theorem cascadeWith_cons {save : Store → Category → Option Store} {act : Bool}
    {item : Category} {rest : List Category} {st : Store} :
    cascadeWith save act (item :: rest) st =
      (if item.active ≠ act then save st { item with active := act } else some st).bind
        (fun st2 => cascadeWith save act rest st2) := by
  unfold cascadeWith
  rw [List.foldlM_cons]
  split <;> rfl

/-- The two save functions unfold, at successor fuel, to a persist
followed by the cascade loop over the freshly queried descendants. -/
theorem CategoryBase_saveF_succ (fuel : Nat) (st : Store) (n : Category) :
    CategoryBase_saveF (fuel + 1) st n =
      (if (CategoryBase_assignSlug n).active
       then some (persist st (CategoryBase_assignSlug n))
       else cascadeWith (fun acc c => CategoryBase_saveF fuel acc c)
              (CategoryBase_assignSlug n).active
              (get_descendants (persist st (CategoryBase_assignSlug n)) (CategoryBase_assignSlug n))
              (persist st (CategoryBase_assignSlug n))) := rfl

theorem Category_saveF_succ (dims : String → Nat × Nat) (fuel : Nat) (st : Store) (n : Category) :
    Category_saveF dims (fuel + 1) st n =
      cascadeWith (fun acc c => Category_saveF dims fuel acc c)
        (Category_setThumbnail dims (Category_assignSlug n)).active
        (get_descendants (persist st (Category_setThumbnail dims (Category_assignSlug n)))
          (Category_setThumbnail dims (Category_assignSlug n)))
        (persist st (Category_setThumbnail dims (Category_assignSlug n))) := rfl

/-- Whenever the per-item save only writes records with the cascaded
active flag, so does the whole cascade loop: any record of the final
store whose active flag differs was already in the starting store. -/
theorem cascadeWith_writes {save : Store → Category → Option Store} {act : Bool}
    (hsave : ∀ st c st', c.active = act → save st c = some st' →
      ∀ r' ∈ st', r'.active ≠ act → r' ∈ st) :
    ∀ (items : List Category) (st st' : Store),
      cascadeWith save act items st = some st' →
      ∀ r' ∈ st', r'.active ≠ act → r' ∈ st := by
  intro items
  induction items with
  | nil =>
    intro st st' h r' hr hact
    rw [cascadeWith_nil] at h
    exact (Option.some_inj.mp h) ▸ hr
  | cons item rest ih =>
    intro st st' h r' hr hact
    rw [cascadeWith_cons] at h
    by_cases hif : item.active ≠ act
    · rw [if_pos hif] at h
      obtain ⟨st2, hs, hcas⟩ := Option.bind_eq_some.mp h
      exact hsave st _ st2 rfl hs r' (ih st2 st' hcas r' hr hact) hact
    · rw [if_neg hif] at h
      exact ih st st' h r' hr hact

/-- Provenance of every record after a cascade: it was already present
when the loop started, or it descends via SaveRel from a record present
at that point or from one of the flipped loop items. -/
theorem cascadeWith_master {save : Store → Category → Option Store} {act : Bool}
    {der : String → String}
    (hsave : ∀ st c st', c.active = act → save st c = some st' →
      ∀ r' ∈ st', r' ∈ st ∨ ∃ r, (r ∈ st ∨ r = c) ∧ SaveRel act der r' r) :
    ∀ (items : List Category) (st st' : Store),
      cascadeWith save act items st = some st' →
      ∀ r' ∈ st', r' ∈ st ∨
        ∃ r, (r ∈ st ∨ ∃ item ∈ items, r = { item with active := act }) ∧ SaveRel act der r' r := by
  intro items
  induction items with
  | nil =>
    intro st st' h r' hr
    rw [cascadeWith_nil] at h
    exact Or.inl ((Option.some_inj.mp h) ▸ hr)
  | cons item rest ih =>
    intro st st' h r' hr
    rw [cascadeWith_cons] at h
    by_cases hif : item.active ≠ act
    · rw [if_pos hif] at h
      obtain ⟨st2, hs, hcas⟩ := Option.bind_eq_some.mp h
      have ground : ∀ x ∈ st2, x ∈ st ∨ ∃ r, (r ∈ st ∨ r = { item with active := act }) ∧
          SaveRel act der x r := hsave st _ st2 rfl hs
      have lift : ∀ x ∈ st2, x ∈ st ∨ ∃ r, (r ∈ st ∨ ∃ it ∈ item :: rest,
          r = { it with active := act }) ∧ SaveRel act der x r := by
        intro x hx
        rcases ground x hx with hx' | ⟨r, hr0, hrel⟩
        · exact Or.inl hx'
        · rcases hr0 with hr0 | hr0
          · exact Or.inr ⟨r, Or.inl hr0, hrel⟩
          · exact Or.inr ⟨r, Or.inr ⟨item, List.mem_cons_self item rest, hr0⟩, hrel⟩
      rcases ih st2 st' hcas r' hr with hmem | ⟨r2, hr2, hrel2⟩
      · exact lift r' hmem
      · rcases hr2 with hr2 | ⟨it, hit, hr2⟩
        · rcases lift r2 hr2 with hmem2 | ⟨r1, hr1, hrel1⟩
          · exact Or.inr ⟨r2, Or.inl hmem2, hrel2⟩
          · exact Or.inr ⟨r1, hr1, saveRel_trans hrel2 hrel1⟩
        · exact Or.inr ⟨r2, Or.inr ⟨it, List.mem_cons_of_mem item hit, hr2⟩, hrel2⟩
    · rw [if_neg hif] at h
      rcases ih st st' h r' hr with hmem | ⟨r, hr0, hrel⟩
      · exact Or.inl hmem
      · rcases hr0 with hr0 | ⟨it, hit, hr0⟩
        · exact Or.inr ⟨r, Or.inl hr0, hrel⟩
        · exact Or.inr ⟨r, Or.inr ⟨it, List.mem_cons_of_mem item hit, hr0⟩, hrel⟩

/-! ## Provenance of every record after a completed save -/

theorem CategoryBase_save_master :
    ∀ (fuel : Nat) (st : Store) (n : Category) (st' : Store),
      CategoryBase_saveF fuel st n = some st' →
      ∀ r' ∈ st', r' ∈ st ∨ ∃ r, (r ∈ st ∨ r = n) ∧ SaveRel n.active derB r' r := by
  intro fuel
  induction fuel with
  | zero => intro st n st' h; exact absurd h (by simp [CategoryBase_saveF])
  | succ f ih =>
    intro st n st' h r' hr
    rw [CategoryBase_saveF_succ] at h
    have hrel1 : SaveRel n.active derB (CategoryBase_assignSlug n) n := saveRel_base_assign n
    have hact1 : (CategoryBase_assignSlug n).active = n.active := (base_assign_fields n).2.2.2.2.2
    set n1 := CategoryBase_assignSlug n with hn1
    set st1 := persist st n1 with hst1
    have ground1 : ∀ x ∈ st1, x ∈ st ∨ ∃ r, (r ∈ st ∨ r = n) ∧ SaveRel n.active derB x r := by
      intro x hx
      rcases mem_persist hx with hx' | hx'
      · exact Or.inr ⟨n, Or.inr rfl, hx' ▸ hrel1⟩
      · exact Or.inl hx'
    split at h
    · exact ground1 r' ((Option.some_inj.mp h) ▸ hr)
    · have hsave : ∀ st c st', c.active = n1.active →
          CategoryBase_saveF f st c = some st' →
          ∀ r' ∈ st', r' ∈ st ∨ ∃ r, (r ∈ st ∨ r = c) ∧ SaveRel n1.active derB r' r := by
        intro st0 c st0' hc h0 r0 hr0
        have := ih st0 c st0' h0 r0 hr0
        rwa [hc] at this
      have hmaster := cascadeWith_master hsave _ st1 st' h r' hr
      rw [hact1] at hmaster
      rcases hmaster with hmem | ⟨r, hr0, hrel⟩
      · exact ground1 r' hmem
      · rcases hr0 with hr0 | ⟨item, hitem, hr0⟩
        · rcases ground1 r hr0 with hmem2 | ⟨r1, hr1, hrel1'⟩
          · exact Or.inr ⟨r, Or.inl hmem2, hrel⟩
          · exact Or.inr ⟨r1, hr1, saveRel_trans hrel hrel1'⟩
        · have hflip : SaveRel n.active derB r item := by
            rw [hr0]
            exact saveRel_flip item
          have hitem1 : item ∈ st1 := (List.mem_filter.mp hitem).1
          rcases ground1 item hitem1 with hmem2 | ⟨r1, hr1, hrel1'⟩
          · exact Or.inr ⟨item, Or.inl hmem2, saveRel_trans hrel hflip⟩
          · exact Or.inr ⟨r1, hr1, saveRel_trans (saveRel_trans hrel hflip) hrel1'⟩

theorem Category_save_master (dims : String → Nat × Nat) :
    ∀ (fuel : Nat) (st : Store) (n : Category) (st' : Store),
      Category_saveF dims fuel st n = some st' →
      ∀ r' ∈ st', r' ∈ st ∨ ∃ r, (r ∈ st ∨ r = n) ∧ SaveRel n.active derC r' r := by
  intro fuel
  induction fuel with
  | zero => intro st n st' h; exact absurd h (by simp [Category_saveF])
  | succ f ih =>
    intro st n st' h r' hr
    rw [Category_saveF_succ] at h
    have hrel1 : SaveRel n.active derC (Category_setThumbnail dims (Category_assignSlug n)) n :=
      saveRel_cat_assign dims n
    have hact1 : (Category_setThumbnail dims (Category_assignSlug n)).active = n.active :=
      (cat_n1_fields dims n).2.2.2.2.2
    set n1 := Category_setThumbnail dims (Category_assignSlug n) with hn1
    set st1 := persist st n1 with hst1
    have ground1 : ∀ x ∈ st1, x ∈ st ∨ ∃ r, (r ∈ st ∨ r = n) ∧ SaveRel n.active derC x r := by
      intro x hx
      rcases mem_persist hx with hx' | hx'
      · exact Or.inr ⟨n, Or.inr rfl, hx' ▸ hrel1⟩
      · exact Or.inl hx'
    have hsave : ∀ st c st', c.active = n1.active →
        Category_saveF dims f st c = some st' →
        ∀ r' ∈ st', r' ∈ st ∨ ∃ r, (r ∈ st ∨ r = c) ∧ SaveRel n1.active derC r' r := by
      intro st0 c st0' hc h0 r0 hr0
      have := ih st0 c st0' h0 r0 hr0
      rwa [hc] at this
    have hmaster := cascadeWith_master hsave _ st1 st' h r' hr
    rw [hact1] at hmaster
    rcases hmaster with hmem | ⟨r, hr0, hrel⟩
    · exact ground1 r' hmem
    · rcases hr0 with hr0 | ⟨item, hitem, hr0⟩
      · rcases ground1 r hr0 with hmem2 | ⟨r1, hr1, hrel1'⟩
        · exact Or.inr ⟨r, Or.inl hmem2, hrel⟩
        · exact Or.inr ⟨r1, hr1, saveRel_trans hrel hrel1'⟩
      · have hflip : SaveRel n.active derC r item := by
          rw [hr0]
          exact hact1 ▸ @saveRel_flip n1.active derC item
        have hitem1 : item ∈ st1 := (List.mem_filter.mp hitem).1
        rcases ground1 item hitem1 with hmem2 | ⟨r1, hr1, hrel1'⟩
        · exact Or.inr ⟨item, Or.inl hmem2, saveRel_trans hrel hflip⟩
        · exact Or.inr ⟨r1, hr1, saveRel_trans (saveRel_trans hrel hflip) hrel1'⟩

/-! ## Corollaries of the provenance lemmas -/

theorem CategoryBase_save_writes {fuel : Nat} {st : Store} {n : Category} {st' : Store}
    (h : CategoryBase_saveF fuel st n = some st') :
    ∀ r' ∈ st', r'.active ≠ n.active → r' ∈ st := by
  intro r' hr hact
  rcases CategoryBase_save_master fuel st n st' h r' hr with hmem | ⟨r, _, hrel⟩
  · exact hmem
  · exact absurd (saveRel_active hrel) hact

theorem Category_save_writes {dims : String → Nat × Nat} {fuel : Nat} {st : Store}
    {n : Category} {st' : Store} (h : Category_saveF dims fuel st n = some st') :
    ∀ r' ∈ st', r'.active ≠ n.active → r' ∈ st := by
  intro r' hr hact
  rcases Category_save_master dims fuel st n st' h r' hr with hmem | ⟨r, _, hrel⟩
  · exact hmem
  · exact absurd (saveRel_active hrel) hact

/-- After a completed CategoryBase.save, every record carrying the id of
the saved node has its active flag. -/
theorem CategoryBase_save_matchAt {fuel : Nat} {st : Store} {n : Category} {st' : Store}
    (h : CategoryBase_saveF fuel st n = some st') : MatchAt st' n.id n.active := by
  cases fuel with
  | zero => exact absurd h (by simp [CategoryBase_saveF])
  | succ f =>
    rw [CategoryBase_saveF_succ] at h
    have hid1 : (CategoryBase_assignSlug n).id = n.id := (base_assign_fields n).1
    have hact1 : (CategoryBase_assignSlug n).active = n.active := (base_assign_fields n).2.2.2.2.2
    have hm1 : MatchAt (persist st (CategoryBase_assignSlug n)) n.id n.active := by
      have := matchAt_persist st (CategoryBase_assignSlug n)
      rwa [hid1, hact1] at this
    split at h
    · exact (Option.some_inj.mp h) ▸ hm1
    · have hw := cascadeWith_writes
        (fun st0 c st0' hc h0 => by
          have := CategoryBase_save_writes h0
          intro r0 hr0 hne
          exact this r0 hr0 (hc ▸ hne))
        _ _ _ h
      rw [hact1] at hw
      exact matchAt_of_writes hw hm1

theorem Category_save_matchAt {dims : String → Nat × Nat} {fuel : Nat} {st : Store}
    {n : Category} {st' : Store} (h : Category_saveF dims fuel st n = some st') :
    MatchAt st' n.id n.active := by
  cases fuel with
  | zero => exact absurd h (by simp [Category_saveF])
  | succ f =>
    rw [Category_saveF_succ] at h
    have hid1 : (Category_setThumbnail dims (Category_assignSlug n)).id = n.id :=
      (cat_n1_fields dims n).1
    have hact1 : (Category_setThumbnail dims (Category_assignSlug n)).active = n.active :=
      (cat_n1_fields dims n).2.2.2.2.2
    have hm1 : MatchAt (persist st (Category_setThumbnail dims (Category_assignSlug n)))
        n.id n.active := by
      have := matchAt_persist st (Category_setThumbnail dims (Category_assignSlug n))
      rwa [hid1, hact1] at this
    have hw := cascadeWith_writes
      (fun st0 c st0' hc h0 => by
        have := Category_save_writes h0
        intro r0 hr0 hne
        exact this r0 hr0 (hc ▸ hne))
      _ _ _ h
    rw [hact1] at hw
    exact matchAt_of_writes hw hm1

/-- Every flipped loop item ends up, in the final store, with only
records of the cascaded active flag under its id. -/
theorem cascadeWith_processed {save : Store → Category → Option Store} {act : Bool}
    (hw : ∀ st c st', c.active = act → save st c = some st' →
      ∀ r' ∈ st', r'.active ≠ act → r' ∈ st)
    (hm : ∀ st c st', c.active = act → save st c = some st' → MatchAt st' c.id act) :
    ∀ (items : List Category) (st st' : Store),
      cascadeWith save act items st = some st' →
      ∀ item ∈ items, item.active ≠ act → MatchAt st' item.id act := by
  intro items
  induction items with
  | nil => intro st st' _ item hitem; exact absurd hitem (List.not_mem_nil item)
  | cons item rest ih =>
    intro st st' h it hit hact
    rw [cascadeWith_cons] at h
    by_cases hif : item.active ≠ act
    · rw [if_pos hif] at h
      obtain ⟨st2, hs, hcas⟩ := Option.bind_eq_some.mp h
      rcases List.mem_cons.mp hit with heq | hmem
      · subst heq
        have hm2 : MatchAt st2 it.id act := hm st { it with active := act } st2 rfl hs
        exact matchAt_of_writes (cascadeWith_writes hw _ _ _ hcas) hm2
      · exact ih st2 st' hcas it hmem hact
    · rw [if_neg hif] at h
      rcases List.mem_cons.mp hit with heq | hmem
      · subst heq; exact absurd hact hif
      · exact ih st st' h it hmem hact

theorem isDescendant_congr {r a b : Category} (ht : a.tree_id = b.tree_id)
    (hl : a.lft = b.lft) (hrg : a.rght = b.rght) :
    isDescendant r a = isDescendant r b := by
  unfold isDescendant
  rw [ht, hl, hrg]

/-- The deactivation cascade of CategoryBase.save reaches the whole
subtree: when an inactive node is saved and the save completes, every
record of the resulting store that the tree marks as a descendant of the
node is inactive. -/
theorem CategoryBase_save_descendants {fuel : Nat} {st : Store} {n : Category} {st' : Store}
    (h : CategoryBase_saveF fuel st n = some st') (hact : n.active = false) :
    ∀ r' ∈ st', isDescendant r' n = true → r'.active = false := by
  cases fuel with
  | zero => exact absurd h (by simp [CategoryBase_saveF])
  | succ f =>
    rw [CategoryBase_saveF_succ] at h
    have hfields := base_assign_fields n
    have hact1 : (CategoryBase_assignSlug n).active = n.active := hfields.2.2.2.2.2
    intro r' hr hd
    by_contra hne
    have hne' : r'.active ≠ n.active := by rw [hact]; exact hne
    rw [if_neg (by rw [hact1, hact]; exact Bool.false_ne_true)] at h
    have hw : ∀ st0 c st0', c.active = (CategoryBase_assignSlug n).active →
        CategoryBase_saveF f st0 c = some st0' →
        ∀ r0 ∈ st0', r0.active ≠ (CategoryBase_assignSlug n).active → r0 ∈ st0 :=
      fun st0 c st0' hc h0 r0 hr0 hne0 =>
        CategoryBase_save_writes h0 r0 hr0 (fun hx => hne0 (hc ▸ hx))
    have hm : ∀ st0 c st0', c.active = (CategoryBase_assignSlug n).active →
        CategoryBase_saveF f st0 c = some st0' →
        MatchAt st0' c.id (CategoryBase_assignSlug n).active :=
      fun st0 c st0' hc h0 => hc ▸ CategoryBase_save_matchAt h0
    have hr1 : r' ∈ persist st (CategoryBase_assignSlug n) :=
      cascadeWith_writes hw _ _ _ h r' hr (by rw [hact1]; exact hne')
    have hdd : isDescendant r' (CategoryBase_assignSlug n) = true := by
      rw [isDescendant_congr hfields.2.2.1 hfields.2.2.2.1 hfields.2.2.2.2.1]
      exact hd
    have hrD : r' ∈ get_descendants (persist st (CategoryBase_assignSlug n))
        (CategoryBase_assignSlug n) := List.mem_filter.mpr ⟨hr1, hdd⟩
    have hmr := cascadeWith_processed hw hm _ _ _ h r' hrD (by rw [hact1]; exact hne')
    exact hne' (hact1 ▸ hmr r' hr rfl)

/-- Category.save runs its cascade with no guard on the active flag:
after a completed save, every descendant record carries exactly the
active flag of the saved node, whichever value that is. -/
theorem Category_save_descendants {dims : String → Nat × Nat} {fuel : Nat} {st : Store}
    {n : Category} {st' : Store} (h : Category_saveF dims fuel st n = some st') :
    ∀ r' ∈ st', isDescendant r' n = true → r'.active = n.active := by
  cases fuel with
  | zero => exact absurd h (by simp [Category_saveF])
  | succ f =>
    rw [Category_saveF_succ] at h
    have hfields := cat_n1_fields dims n
    have hact1 : (Category_setThumbnail dims (Category_assignSlug n)).active = n.active :=
      hfields.2.2.2.2.2
    intro r' hr hd
    by_contra hne
    have hw : ∀ st0 c st0',
        c.active = (Category_setThumbnail dims (Category_assignSlug n)).active →
        Category_saveF dims f st0 c = some st0' →
        ∀ r0 ∈ st0',
          r0.active ≠ (Category_setThumbnail dims (Category_assignSlug n)).active → r0 ∈ st0 :=
      fun st0 c st0' hc h0 r0 hr0 hne0 =>
        Category_save_writes h0 r0 hr0 (fun hx => hne0 (hc ▸ hx))
    have hm : ∀ st0 c st0',
        c.active = (Category_setThumbnail dims (Category_assignSlug n)).active →
        Category_saveF dims f st0 c = some st0' →
        MatchAt st0' c.id (Category_setThumbnail dims (Category_assignSlug n)).active :=
      fun st0 c st0' hc h0 => hc ▸ Category_save_matchAt h0
    have hr1 : r' ∈ persist st (Category_setThumbnail dims (Category_assignSlug n)) :=
      cascadeWith_writes hw _ _ _ h r' hr (by rw [hact1]; exact hne)
    have hdd : isDescendant r' (Category_setThumbnail dims (Category_assignSlug n)) = true := by
      rw [isDescendant_congr hfields.2.2.1 hfields.2.2.2.1 hfields.2.2.2.2.1]
      exact hd
    have hrD : r' ∈ get_descendants
        (persist st (Category_setThumbnail dims (Category_assignSlug n)))
        (Category_setThumbnail dims (Category_assignSlug n)) :=
      List.mem_filter.mpr ⟨hr1, hdd⟩
    have hmr := cascadeWith_processed hw hm _ _ _ h r' hrD (by rw [hact1]; exact hne)
    exact hne (hact1 ▸ hmr r' hr rfl)

/-! ## The accumulation recurrence of all_categories -/

theorem all_categories_loop_spec (d : String) :
    ∀ (ns : List String) (acc : List String),
      (all_categories_loop d acc ns).length = acc.length + ns.length ∧
      (all_categories_loop d acc ns).take acc.length = acc ∧
      ∀ i x, ns[i]? = some x →
        (all_categories_loop d acc ns)[acc.length + i]? =
          some (d.intercalate ((all_categories_loop d acc ns).take (acc.length + i) ++ [x])) := by
  intro ns
  induction ns with
  | nil =>
    intro acc
    refine ⟨by simp [all_categories_loop], by simp [all_categories_loop], ?_⟩
    intro i x hix
    simp at hix
  | cons n rest ih =>
    intro acc
    set j := d.intercalate (acc ++ [n]) with hj
    have hstep : all_categories_loop d acc (n :: rest) =
        all_categories_loop d (acc ++ [j]) rest := rfl
    obtain ⟨ihlen, ihtake, ihidx⟩ := ih (acc ++ [j])
    have hacclen : (acc ++ [j]).length = acc.length + 1 := by simp
    have hle : acc.length ≤ (acc ++ [j]).length := by rw [hacclen]; omega
    have htake : (all_categories_loop d acc (n :: rest)).take acc.length = acc := by
      rw [hstep]
      have h2 : (all_categories_loop d (acc ++ [j]) rest).take acc.length =
          ((all_categories_loop d (acc ++ [j]) rest).take (acc ++ [j]).length).take acc.length := by
        rw [List.take_take, Nat.min_eq_left hle]
      rw [h2, ihtake, List.take_left]
    refine ⟨?_, htake, ?_⟩
    · rw [hstep, ihlen, hacclen]
      simp
      omega
    · intro i x hix
      cases i with
      | zero =>
        rw [List.getElem?_cons_zero] at hix
        obtain rfl : n = x := Option.some_inj.mp hix
        rw [Nat.add_zero, htake]
        rw [hstep]
        have hlt : acc.length < (acc ++ [j]).length := by rw [hacclen]; omega
        have h3 : (all_categories_loop d (acc ++ [j]) rest)[acc.length]? =
            ((all_categories_loop d (acc ++ [j]) rest).take (acc ++ [j]).length)[acc.length]? := by
          rw [List.getElem?_take, if_pos hlt]
        rw [h3, ihtake]
        exact List.getElem?_concat_length acc j
      | succ i' =>
        rw [List.getElem?_cons_succ] at hix
        have harith : acc.length + (i' + 1) = (acc ++ [j]).length + i' := by
          rw [hacclen]; omega
        rw [hstep, harith]
        exact ihidx i' x hix

/-! # The claims -/

/-- C1, counterexample: the claim states that saving a node with
active == true never changes the active flag of a descendant, for both
save implementations.  Category.save (models.py) runs its cascade
unconditionally: saving the active parent cexP flips its inactive
descendant cexC to active. -/
theorem claim_C1_counterexample :
    Category_saveF dims0 3 [cexP, cexC] cexP = some [cexP, { cexC with active := true }] ∧
    isDescendant cexC cexP = true ∧ cexC.active = false ∧ cexP.active = true ∧
    ¬ ({ cexC with active := true }).active = cexC.active := by decide

/-- C1, amended: CategoryBase.save (base.py) with active == true performs
only the persist of the node itself and leaves every other record
unchanged, while Category.save (models.py) cascades unconditionally, so
after it completes every descendant record is active as well. -/
theorem claim_C1 (fuel : Nat) (st : Store) (n : Category) (dims : String → Nat × Nat)
    (st' : Store) :
    (n.active = true →
      CategoryBase_saveF (fuel + 1) st n = some (persist st (CategoryBase_assignSlug n)) ∧
      ∀ r ∈ st, ¬ r.id = n.id → r ∈ persist st (CategoryBase_assignSlug n))
    ∧ (n.active = true → Category_saveF dims fuel st n = some st' →
      ∀ r' ∈ st', isDescendant r' n = true → r'.active = true) := by
  constructor
  · intro h
    refine ⟨?_, ?_⟩
    · rw [CategoryBase_saveF_succ,
        if_pos (by rw [(base_assign_fields n).2.2.2.2.2]; exact h)]
    · intro r hr hid
      exact mem_persist_of_ne hr (fun hx => hid (hx.trans (base_assign_fields n).1))
  · intro h hsave r' hr hd
    exact h ▸ Category_save_descendants hsave r' hr hd

/-- C1, witness: the amended claim evaluated on the two-node store; the
base save of the active parent changes no other record, and the unguarded
Category.save leaves every descendant active. -/
theorem claim_C1_witness :
    cexP.active = true ∧
    (CategoryBase_saveF 3 [cexP, cexC] cexP = some (persist [cexP, cexC] (CategoryBase_assignSlug cexP)) ∧
      ∀ r ∈ ([cexP, cexC] : Store), ¬ r.id = cexP.id →
        r ∈ persist [cexP, cexC] (CategoryBase_assignSlug cexP)) ∧
    (∀ r' ∈ ([cexP, { cexC with active := true }] : Store),
      isDescendant r' cexP = true → r'.active = true) :=
  ⟨by decide,
   (claim_C1 2 [cexP, cexC] cexP dims0 [cexP, { cexC with active := true }]).1 (by decide),
   (claim_C1 2 [cexP, cexC] cexP dims0 [cexP, { cexC with active := true }]).2 (by decide)
     (by decide)⟩

/-- C2: after a completed save of an inactive node, every record the tree
marks as a descendant of that node is inactive, for both CategoryBase.save
and Category.save; the descendant query covers the whole subtree, not just
direct children. -/
theorem claim_C2 (fuel : Nat) (st : Store) (n : Category) (st' : Store)
    (dims : String → Nat × Nat) (hact : n.active = false) :
    (CategoryBase_saveF fuel st n = some st' →
      ∀ r' ∈ st', isDescendant r' n = true → r'.active = false)
    ∧ (Category_saveF dims fuel st n = some st' →
      ∀ r' ∈ st', isDescendant r' n = true → r'.active = false) :=
  ⟨fun h => CategoryBase_save_descendants h hact,
   fun h r' hr hd => hact ▸ Category_save_descendants h r' hr hd⟩

/-- C2, witness: deactivating the root A of the three-level demo tree
A -> B -> C leaves B and C inactive after the save completes. -/
theorem claim_C2_witness :
    demoA.active = false ∧
    CategoryBase_saveF 3 demoStore demoA = some demoOut ∧
    (∀ r' ∈ demoOut, isDescendant r' demoA = true → r'.active = false) :=
  ⟨by decide, by decide,
   (claim_C2 3 demoStore demoA demoOut dims0 (by decide)).1 (by decide)⟩

/-- C10: slug derivation happens only when the slug is blank.  The
assignment step of both saves is the identity on a node with a non-empty
slug, and after any completed save every record either was already in the
input store or stems from a prior record (or the saved node) with the same
id whose slug it keeps, the only exception being a record whose slug was
blank, which receives the slug derived from its own name. -/
theorem claim_C10 :
    (∀ n : Category, ¬ n.slug = "" →
      CategoryBase_assignSlug n = n ∧ Category_assignSlug n = n)
    ∧ (∀ (fuel : Nat) (st : Store) (n : Category) (st' : Store),
        CategoryBase_saveF fuel st n = some st' →
        ∀ r' ∈ st', r' ∈ st ∨ ∃ r, (r ∈ st ∨ r = n) ∧ r'.id = r.id ∧
          (r'.slug = r.slug ∨ (r.slug = "" ∧ r'.slug = derB r.name)))
    ∧ (∀ (dims : String → Nat × Nat) (fuel : Nat) (st : Store) (n : Category) (st' : Store),
        Category_saveF dims fuel st n = some st' →
        ∀ r' ∈ st', r' ∈ st ∨ ∃ r, (r ∈ st ∨ r = n) ∧ r'.id = r.id ∧
          (r'.slug = r.slug ∨ (r.slug = "" ∧ r'.slug = derC r.name))) := by
  refine ⟨?_, ?_, ?_⟩
  · intro n h
    constructor <;> simp [CategoryBase_assignSlug, Category_assignSlug, h]
  · intro fuel st n st' h r' hr
    rcases CategoryBase_save_master fuel st n st' h r' hr with hmem | ⟨r, h0, hrel⟩
    · exact Or.inl hmem
    · exact Or.inr ⟨r, h0, hrel.1, hrel.2.2.2.2.2.2⟩
  · intro dims fuel st n st' h r' hr
    rcases Category_save_master dims fuel st n st' h r' hr with hmem | ⟨r, h0, hrel⟩
    · exact Or.inl hmem
    · exact Or.inr ⟨r, h0, hrel.1, hrel.2.2.2.2.2.2⟩

/-- C10, witness: saving the inactive demo root leaves the non-empty
slugs of the cascaded records b and c unchanged, as instances of the
provenance statement. -/
theorem claim_C10_witness :
    (¬ demoB.slug = "" ∧ CategoryBase_assignSlug demoB = demoB ∧
      Category_assignSlug demoB = demoB) ∧
    CategoryBase_saveF 3 demoStore demoA = some demoOut ∧
    (∀ r' ∈ demoOut, r' ∈ demoStore ∨ ∃ r, (r ∈ demoStore ∨ r = demoA) ∧ r'.id = r.id ∧
      (r'.slug = r.slug ∨ (r.slug = "" ∧ r'.slug = derB r.name))) :=
  ⟨⟨by decide, (claim_C10.1 demoB (by decide)).1, (claim_C10.1 demoB (by decide)).2⟩,
   by decide,
   claim_C10.2.1 3 demoStore demoA demoOut (by decide)⟩

/-- C3: the claim describes the display name with the first ancestor
dropped unless its slug is magazine or nextgov-categories.  The
Category implementation (models.py) behaves that way, but the
CategoryBase implementation (base.py) joins over the original ancestors
list instead of the pruned copy, so the first ancestor is always kept:
on the chain Root(topics) -> Mid -> Leaf with no unicode_name override,
base.py yields "Root > Mid > Leaf" where the claim (and models.py)
yields "Mid > Leaf". -/
theorem claim_C3_code_bug :
    leafN.unicode_name = none ∧
    CategoryBase_displayName [ancRoot, ancMid] leafN = "Root > Mid > Leaf" ∧
    Category_displayName [ancRoot, ancMid] leafN = "Mid > Leaf" ∧
    ¬ ("Root > Mid > Leaf" : String) = "Mid > Leaf" ∧
    Category_displayName [{ ancRoot with slug := "magazine" }, ancMid] leafN =
      "Root > Mid > Leaf" := by decide

/-- C5: get_absolute_url returns alternate_url verbatim whenever it is
non-empty; otherwise it returns the configured base path, the slugs of
the root-to-node-inclusive ancestor list with its first element dropped
unconditionally joined by "/", and a trailing "/". -/
theorem claim_C5 (base_path : String) (ancestors : List Category) (self : Category) :
    (¬ self.alternate_url = "" →
      Category_get_absolute_url base_path ancestors self = self.alternate_url)
    ∧ (self.alternate_url = "" →
      Category_get_absolute_url base_path ancestors self =
        base_path ++ "/".intercalate (((ancestors ++ [self]).map (fun c => c.slug)).drop 1)
          ++ "/") := by
  constructor
  · intro h
    simp [Category_get_absolute_url, h]
  · intro h
    have hlen : (ancestors ++ [self]).length > 0 := by simp
    have htail : ((ancestors ++ [self]).tail).map (fun c => c.slug) =
        ((ancestors ++ [self]).map (fun c => c.slug)).drop 1 := by
      rw [← List.drop_one, List.map_drop]
    simp only [Category_get_absolute_url, h, if_pos hlen]
    rw [if_neg (by simp), htail]

/-- C5, witness: for the demo chain the URL drops the top-level slug, and
a node with a non-empty alternate_url returns it ignoring the tree. -/
theorem claim_C5_witness :
    (¬ altNode.alternate_url = "" ∧
      Category_get_absolute_url "/categories/" [ancRoot, ancMid] altNode =
        altNode.alternate_url) ∧
    (leafN.alternate_url = "" ∧
      Category_get_absolute_url "/categories/" [ancRoot, ancMid] leafN =
        "/categories/" ++
          "/".intercalate ((([ancRoot, ancMid] ++ [leafN]).map (fun c => c.slug)).drop 1)
          ++ "/") :=
  ⟨⟨by decide, (claim_C5 "/categories/" [ancRoot, ancMid] altNode).1 (by decide)⟩,
   ⟨by decide, (claim_C5 "/categories/" [ancRoot, ancMid] leafN).2 (by decide)⟩⟩

set_option maxRecDepth 8192 in
/-- C6: when the slug is empty at save time, both saves assign the
URL-safe form of the name truncated to 50 characters before persisting,
and a fresh node named "Hello World" with an empty slug has the slug
hello-world after either save completes. -/
theorem claim_C6 :
    (∀ n : Category, n.slug = "" →
      (CategoryBase_assignSlug n).slug = (slugify (SLUG_TRANSLITERATOR n.name)).take 50 ∧
      (Category_assignSlug n).slug = (slugify n.name).take 50)
    ∧ slugify "Hello World" = "hello-world"
    ∧ CategoryBase_saveF 1 [] helloNode = some [helloSaved]
    ∧ Category_saveF dims0 1 [] helloNode = some [helloSaved]
    ∧ helloSaved.slug = "hello-world" := by
  refine ⟨?_, by decide, by decide, by decide, by decide⟩
  intro n h
  constructor <;> simp [CategoryBase_assignSlug, Category_assignSlug, h]

/-- C6, witness: the general slug-assignment statement applied to the
fresh "Hello World" node. -/
theorem claim_C6_witness :
    helloNode.slug = "" ∧
    (CategoryBase_assignSlug helloNode).slug =
      (slugify (SLUG_TRANSLITERATOR helloNode.name)).take 50 ∧
    (Category_assignSlug helloNode).slug = (slugify helloNode.name).take 50 :=
  ⟨rfl, (claim_C6.1 helloNode rfl).1, (claim_C6.1 helloNode rfl).2⟩

/-- C4, counterexample: the claim predicts path i = names[0..i] joined,
which for the chain A -> B -> C with delimiter :: would be
["A", "A::B", "A::B::C"]; the loop instead joins all previously built
paths plus the current name, yielding "A::A::B::C" at index 2. -/
theorem claim_C4_counterexample :
    (CategoryBase_all_categories attrs0 [demoA, demoB, demoC] "::").map Prod.fst =
      some ["A", "A::B", "A::A::B::C"] ∧
    ¬ (["A", "A::B", "A::A::B::C"] : List String) = ["A", "A::B", "A::B::C"] :=
  ⟨rfl, by decide⟩

/-- C4, amended: on a fresh object all_categories returns one entry per
ancestor level (n+1 entries for names[0..n], root first including the
node), where entry i is the delimiter-join of the previously returned
entries 0..i-1 followed by names[i]; this coincides with the claimed
join of names[0..i] only for i at most 1. -/
theorem claim_C4 (cats : List Category) (d : String) :
    ∃ r a, CategoryBase_all_categories attrs0 cats d = some (r, a) ∧
      r.length = cats.length ∧
      ∀ i x, (cats.map (fun c => c.name))[i]? = some x →
        r[i]? = some (d.intercalate (r.take i ++ [x])) := by
  obtain ⟨hlen, -, hidx⟩ := all_categories_loop_spec d (cats.map (fun c => c.name)) []
  have heq : CategoryBase_all_categories attrs0 cats d =
      some (all_categories_loop d [] (cats.map (fun c => c.name)),
        fun k => if k = "_CategoryBase__all_categories"
          then some (all_categories_loop d [] (cats.map (fun c => c.name)))
          else attrs0 k) := rfl
  refine ⟨_, _, heq, ?_, ?_⟩
  · rw [hlen]
    simp
  · intro i x hix
    simpa using hidx i x hix

/-- C4, witness: the amended recurrence evaluated on the demo chain. -/
theorem claim_C4_witness :
    ∃ r a, CategoryBase_all_categories attrs0 [demoA, demoB, demoC] "::" = some (r, a) ∧
      r.length = 3 ∧ r[2]? = some ("::".intercalate (r.take 2 ++ ["C"])) := by
  obtain ⟨r, a, heq, hlen, hidx⟩ := claim_C4 [demoA, demoB, demoC] "::"
  exact ⟨r, a, heq, hlen, hidx 2 "C" (by decide)⟩

/-- C9: the memoization guard of all_categories tests the unmangled
attribute name while the method only ever stores under the mangled one,
so on any object that never had the unmangled attribute the guard never
fires: every call recomputes the paths from the current ancestor names,
and the state left behind still cannot satisfy the guard, so a second
call after an ancestor rename is built from the new names, never from a
stale cache. -/
theorem claim_C9 (attrs : Attrs) (anc1 anc2 : List Category) (d : String)
    (h : attrs "__all_categories" = none) :
    ∃ r1 a1, CategoryBase_all_categories attrs anc1 d = some (r1, a1) ∧
      r1 = all_categories_loop d [] (anc1.map (fun c => c.name)) ∧
      a1 "__all_categories" = none ∧
      ∃ r2 a2, CategoryBase_all_categories a1 anc2 d = some (r2, a2) ∧
        r2 = all_categories_loop d [] (anc2.map (fun c => c.name)) := by
  have h1 : CategoryBase_all_categories attrs anc1 d =
      some (all_categories_loop d [] (anc1.map (fun c => c.name)),
        fun k => if k = "_CategoryBase__all_categories"
          then some (all_categories_loop d [] (anc1.map (fun c => c.name)))
          else attrs k) := by
    unfold CategoryBase_all_categories
    rw [h]
    simp
  have ha1 : (fun k => if k = "_CategoryBase__all_categories"
      then some (all_categories_loop d [] (anc1.map (fun c => c.name)))
      else attrs k) "__all_categories" = none := by
    simp only []
    rw [if_neg (by decide)]
    exact h
  have h2 : CategoryBase_all_categories
      (fun k => if k = "_CategoryBase__all_categories"
        then some (all_categories_loop d [] (anc1.map (fun c => c.name)))
        else attrs k) anc2 d =
      some (all_categories_loop d [] (anc2.map (fun c => c.name)),
        fun k => if k = "_CategoryBase__all_categories"
          then some (all_categories_loop d [] (anc2.map (fun c => c.name)))
          else (fun k => if k = "_CategoryBase__all_categories"
            then some (all_categories_loop d [] (anc1.map (fun c => c.name)))
            else attrs k) k) := by
    unfold CategoryBase_all_categories
    rw [ha1]
    simp
  exact ⟨_, _, h1, rfl, ha1, _, _, h2, rfl⟩

/-- C9, witness: the recomputation statement evaluated on an ancestor
chain before and after a rename, starting from an attribute state with
nothing stored. -/
theorem claim_C9_witness :
    attrs0 "__all_categories" = none ∧
    (∃ r1 a1, CategoryBase_all_categories attrs0 [ancRoot] "::" = some (r1, a1) ∧
      r1 = all_categories_loop "::" [] ([ancRoot].map (fun c => c.name)) ∧
      a1 "__all_categories" = none ∧
      ∃ r2 a2, CategoryBase_all_categories a1 [{ ancRoot with name := "Renamed" }] "::" =
          some (r2, a2) ∧
        r2 = all_categories_loop "::" []
          ([{ ancRoot with name := "Renamed" }].map (fun c => c.name))) :=
  ⟨rfl, claim_C9 attrs0 [ancRoot] [{ ancRoot with name := "Renamed" }] "::" rfl⟩

/-- C7: the parent validation of the admin form clean: SelfParent exactly
when the chosen parent id equals the instance id, CyclicParent exactly
when the chosen parent id is among the current descendant ids of the
instance, success when the parent is cleared or the instance is new, and
success for any non-self non-descendant parent.  The two hypotheses state
tree sanity: a new instance has no descendants and no node is its own
descendant. -/
theorem claim_C7 (descendant_ids : List Nat) (parent : Option ParentRef)
    (instance_id : Option Nat)
    (h1 : instance_id = none → descendant_ids = [])
    (h2 : ∀ i, instance_id = some i → i ∉ descendant_ids) :
    (clean_parent_valid descendant_ids parent instance_id =
        Except.error CleanError.SelfParent ↔
      ∃ p i, parent = some p ∧ instance_id = some i ∧ p.id = i)
    ∧ (clean_parent_valid descendant_ids parent instance_id =
        Except.error CleanError.CyclicParent ↔
      ∃ p, parent = some p ∧ p.id ∈ descendant_ids)
    ∧ ((parent = none ∨ instance_id = none) →
      clean_parent_valid descendant_ids parent instance_id = Except.ok ())
    ∧ (∀ p i, parent = some p → instance_id = some i → ¬ p.id = i →
      p.id ∉ descendant_ids →
      clean_parent_valid descendant_ids parent instance_id = Except.ok ()) := by
  cases parent with
  | none => simp [clean_parent_valid]
  | some p =>
    cases instance_id with
    | none =>
      have hd : descendant_ids = [] := h1 rfl
      subst hd
      simp [clean_parent_valid]
    | some i =>
      have hnotin : i ∉ descendant_ids := h2 i rfl
      by_cases hpi : p.id = i
      · have hpd : p.id ∉ descendant_ids := hpi ▸ hnotin
        simp [clean_parent_valid, hpi, hpd, hnotin]
      · by_cases hmem : p.id ∈ descendant_ids
        · simp [clean_parent_valid, hpi, hmem]
        · simp [clean_parent_valid, hpi, hmem]

/-- C7, witness: with descendants [2, 3] of instance 1, choosing parent 2
fails with CyclicParent, choosing parent 5 succeeds, choosing parent 1
fails with SelfParent, and a cleared parent succeeds. -/
theorem claim_C7_witness :
    clean_parent_valid [2, 3] (some { id := 2, tree_id := 7 }) (some 1) =
      Except.error CleanError.CyclicParent ∧
    clean_parent_valid [2, 3] (some { id := 5, tree_id := 7 }) (some 1) =
      Except.ok () ∧
    clean_parent_valid [2, 3] (some { id := 1, tree_id := 7 }) (some 1) =
      Except.error CleanError.SelfParent ∧
    clean_parent_valid [2, 3] none (some 1) = Except.ok () := by
  have hh1 : (some 1 : Option Nat) = none → ([2, 3] : List Nat) = [] := by
    intro hx
    exact absurd hx (by decide)
  have hh2 : ∀ i, (some 1 : Option Nat) = some i → i ∉ ([2, 3] : List Nat) := by
    intro i hi
    cases hi
    decide
  refine ⟨?_, ?_, ?_, ?_⟩
  · exact (claim_C7 [2, 3] (some { id := 2, tree_id := 7 }) (some 1) hh1 hh2).2.1.mpr
      ⟨{ id := 2, tree_id := 7 }, rfl, by decide⟩
  · exact (claim_C7 [2, 3] (some { id := 5, tree_id := 7 }) (some 1) hh1 hh2).2.2.2
      { id := 5, tree_id := 7 } 1 rfl rfl (by decide) (by decide)
  · exact (claim_C7 [2, 3] (some { id := 1, tree_id := 7 }) (some 1) hh1 hh2).1.mpr
      ⟨{ id := 1, tree_id := 7 }, 1, rfl, rfl, rfl⟩
  · exact (claim_C7 [2, 3] none (some 1) hh1 hh2).2.2.1 (Or.inl rfl)

/-- C8: the slug validation of the admin form clean fails with
DuplicateSlug exactly when a parent is chosen and some row with a
different id in the tree of that parent already carries the candidate
slug; with no parent chosen the tree-scoped check is skipped entirely and
no DuplicateSlug error is possible. -/
theorem claim_C8 (store : Store) (parent : Option ParentRef) (instance_id : Option Nat)
    (slug : String) :
    (clean_slug_unique store parent instance_id slug =
        Except.error CleanError.DuplicateSlug ↔
      ∃ p, parent = some p ∧ ∃ c ∈ store, c.tree_id = p.tree_id ∧
        ¬ some c.id = instance_id ∧ c.slug = slug)
    ∧ (parent = none →
      clean_slug_unique store parent instance_id slug = Except.ok ()) := by
  cases parent with
  | none => simp [clean_slug_unique]
  | some p =>
    refine ⟨?_, by simp⟩
    unfold clean_slug_unique
    by_cases hmem : slug ∈ (store.filter
        (fun c => decide (c.tree_id = p.tree_id ∧ ¬ some c.id = instance_id))).map
        (fun c => c.slug)
    · rw [if_pos hmem]
      refine ⟨fun _ => ?_, fun _ => rfl⟩
      obtain ⟨c, hc, hslug⟩ := List.mem_map.mp hmem
      obtain ⟨hcs, hcond⟩ := List.mem_filter.mp hc
      obtain ⟨htree, hid⟩ := of_decide_eq_true hcond
      exact ⟨p, rfl, c, hcs, htree, hid, hslug⟩
    · rw [if_neg hmem]
      refine ⟨fun hx => absurd hx (by simp), ?_⟩
      rintro ⟨q, hq, c, hcs, htree, hid, hslug⟩
      obtain rfl : p = q := Option.some_inj.mp hq
      exact absurd (List.mem_map.mpr ⟨c, List.mem_filter.mpr
        ⟨hcs, decide_eq_true ⟨htree, hid⟩⟩, hslug⟩) hmem

/-- C8, witness: the store holds a row with slug dup in tree 7; choosing
a parent from tree 7 with a different instance id raises DuplicateSlug,
while a root-level candidate with the same slug passes. -/
theorem claim_C8_witness :
    clean_slug_unique slugStore (some { id := 2, tree_id := 7 }) (some 9) "dup" =
      Except.error CleanError.DuplicateSlug ∧
    clean_slug_unique slugStore none (some 9) "dup" = Except.ok () :=
  ⟨(claim_C8 slugStore (some { id := 2, tree_id := 7 }) (some 9) "dup").1.mpr
      ⟨{ id := 2, tree_id := 7 }, rfl, slugRow, by decide, by decide, by decide, by decide⟩,
   (claim_C8 slugStore none (some 9) "dup").2 rfl⟩

end GovexecCategories
